import Mathlib

/-!
# Shinonome (console BMS player) — verification of the core engine

Shallow embedding of the score-keeping, judgment, chart-parsing and
timeline-building code of `src/shinonome.cc`.  Doubles are modelled as
rationals (`ℚ`), C `int`s as `ℤ` with explicit truncating division
(`Int.tdiv`) where the C code divides.  Fallible container accesses are
totalised in the way noted at each definition; the notes record exactly
where the C++ code would throw/UB and why the programs agree on the
inputs the player actually produces.
-/

/-- `INT_MAX`, the sentinel beat/time used throughout the program. -/
def INT_MAX : ℚ := 2147483647

/-- `JUDGE_BORDER_COOL` (0.025 s). -/
def JUDGE_BORDER_COOL : ℚ := 1/40

/-- `JUDGE_BORDER_GREAT` (0.050 s). -/
def JUDGE_BORDER_GREAT : ℚ := 1/20

/-- `JUDGE_BORDER_GOOD` (0.100 s). -/
def JUDGE_BORDER_GOOD : ℚ := 1/10

/-- `struct Chip { double beat; double beat2; double value; }`. -/
structure Chip where
  beat  : ℚ
  beat2 : ℚ
  value : ℚ
deriving DecidableEq

/-- `struct Segment { double time; double beat; double velocity; double bpm; }`. -/
structure Segment where
  time     : ℚ
  beat     : ℚ
  velocity : ℚ
  bpm      : ℚ
deriving DecidableEq

/-- `struct Score`: 4 judgment counters (`judges[0..3]` = cool, great, good,
miss), combo, combo bonus, max combo, point, total judged, total notes.
C `int` fields are modelled as `ℤ`. -/
structure Score where
  judges      : Fin 4 → ℤ
  combo       : ℤ
  comboBonus  : ℤ
  maxCombo    : ℤ
  point       : ℤ
  totalJudges : ℤ
  totalNotes  : ℤ

/-- `score.judges[k]++` — bump the counter whose index equals `k`
(the C code only ever calls this with `k` in range `0..3`). -/
def bumpJudge (f : Fin 4 → ℤ) (k : ℤ) : Fin 4 → ℤ :=
  fun i => if (i : ℤ) = k then f i + 1 else f i

/-- `calculate(Score &, int judge)`: `score.judges[judge - 1]++;
score.combo++; score.totalJudges++;`. -/
def calculate (s : Score) (judge : ℤ) : Score :=
  { s with
    judges      := bumpJudge s.judges (judge - 1)
    combo       := s.combo + 1
    totalJudges := s.totalJudges + 1 }

/-- Divisor of the combo-bonus formula, `2 * t - 11` with
`t = score.totalNotes`. -/
def bonusDenom (s : Score) : ℤ := 2 * s.totalNotes - 11

/-- `comboBonus(Score &)`: `c = combo`, `p = |c - 11|`,
`score.comboBonus = 1250 * (c*c - (c-10)*p + 19*c - 110) / (2*t - 11)`
with C truncating integer division (note: an assignment, the previous
accumulator value is discarded). -/
def comboBonus (s : Score) : Score :=
  let c := s.combo
  let p := if c - 11 < 0 then -(c - 11) else c - 11
  { s with
    comboBonus :=
      Int.tdiv (1250 * (c * c - (c - 10) * p + 19 * c - 110)) (bonusDenom s) }

/-- `comboCount(Score &)`: fold `combo` into `maxCombo`, run `comboBonus`,
then zero `combo`. -/
def comboCount (s : Score) : Score :=
  let s₁ := if s.maxCombo < s.combo then { s with maxCombo := s.combo } else s
  let s₂ := comboBonus s₁
  { s₂ with combo := 0 }

/-- `calcReset(Score &)`: `judges[3]++` (miss), `comboCount`, `totalJudges++`. -/
def calcReset (s : Score) : Score :=
  let s₁ := { s with judges := bumpJudge s.judges 3 }
  let s₂ := comboCount s₁
  { s₂ with totalJudges := s₂.totalJudges + 1 }

/-- Divisor of the point formula, `score.totalNotes`. -/
def scoreDenom (s : Score) : ℤ := s.totalNotes

/-- `scoreCount(Score &)`:
`point = (75000*j[0]/t) + ((50000*j[1] + 10000*j[2])/t) + comboBonus`
with C truncating integer division. -/
def scoreCount (s : Score) : Score :=
  { s with
    point :=
      Int.tdiv (75000 * s.judges 0) (scoreDenom s) +
      Int.tdiv (50000 * s.judges 1 + 10000 * s.judges 2) (scoreDenom s) +
      s.comboBonus }

/-- The score part of `gameOver(Player &, Score &)`: `comboCount` (the
session-end combo reset) followed by `scoreCount`. -/
def gameOver (s : Score) : Score := scoreCount (comboCount s)

/-! ## Chart parser: `parseBMSMeasure`, `calcChip` -/

/-- Value of one digit in base 36, as `std::stoi(str, NULL, 36)` reads it
(letters case-insensitive); non-digits give 0. -/
def digit36 (ch : Char) : ℕ :=
  if '0' ≤ ch ∧ ch ≤ '9' then ch.toNat - '0'.toNat
  else if 'a' ≤ ch ∧ ch ≤ 'z' then ch.toNat - 'a'.toNat + 10
  else if 'A' ≤ ch ∧ ch ≤ 'Z' then ch.toNat - 'A'.toNat + 10
  else 0

/-- `std::stoi(str, NULL, 36)` on a token of base-36 digits. -/
def stoi36 (s : String) : ℕ := s.data.foldl (fun acc ch => acc * 36 + digit36 ch) 0

/-- Value of one digit in base 16. -/
def digit16 (ch : Char) : ℕ :=
  if '0' ≤ ch ∧ ch ≤ '9' then ch.toNat - '0'.toNat
  else if 'a' ≤ ch ∧ ch ≤ 'f' then ch.toNat - 'a'.toNat + 10
  else if 'A' ≤ ch ∧ ch ≤ 'F' then ch.toNat - 'A'.toNat + 10
  else 0

/-- `std::stoi(str, NULL, 16)` on a token of hex digits. -/
def stoi16 (s : String) : ℕ := s.data.foldl (fun acc ch => acc * 16 + digit16 ch) 0

/-- The part of the `BMS` record read by `calcChip`: the per-measure beat
lengths, the two lookup tables and the long-note-marker token. -/
structure BMSEnv where
  beats     : ℕ → ℚ
  bpmTable  : ℕ → ℚ
  stopTable : ℕ → ℚ
  lnobj     : String

/-- The C++ scan `while (chips.at(i).beat <= beat) i++;` counted from the
start of the given (suffix) list: number of leading chips whose beat is
`≤ beat`.  (The C++ `at` would throw if the scan ran past the end; the
program always keeps an `INT_MAX`-beat sentinel at the end of every chip
sequence, so on the program's inputs the scan stops inside the list and
the two agree.) -/
def scanPos : List Chip → ℚ → ℕ
  | [], _ => 0
  | ch :: rest, b => if ch.beat ≤ b then scanPos rest b + 1 else 0

/-- `chips.insert(chips.cbegin() + p, x)`. -/
def insertAt (l : List Chip) (p : ℕ) (x : Chip) : List Chip :=
  l.take p ++ x :: l.drop p

/-- `chips.at(k).beat2 = b` (in-range whenever the program performs it). -/
def setBeat2 (l : List Chip) (k : ℕ) (b : ℚ) : List Chip :=
  match l.get? k with
  | some ch => l.set k { ch with beat2 := b }
  | none => l

/-- `chips.at(k).beat2 < 0` (open long note at index `k`), false when out
of range. -/
def openAt (l : List Chip) (k : ℕ) : Bool :=
  match l.get? k with
  | some ch => decide (ch.beat2 < 0)
  | none => false

/-- Loop state of `calcChip`: the chip sequence being edited, the scan
index `i`, and `bms.totalNotes`. -/
structure ChipState where
  chips : List Chip
  i     : ℕ
  notes : ℤ
deriving DecidableEq

/-- One iteration of the `calcChip` token loop (one 2-character token at
absolute beat `beat`): skip `"00"`, advance the scan index, then route on
the channel exactly as the `switch` does. -/
def chipStep (env : BMSEnv) (channel : ℕ) (beat : ℚ) (tok : String)
    (st : ChipState) : ChipState :=
  if tok = "00" then st else
  let p := st.i + scanPos (st.chips.drop st.i) beat
  if channel = 1 then
    ⟨insertAt st.chips p ⟨beat, 0, (stoi36 tok : ℚ)⟩, p, st.notes⟩
  else if channel = 3 then
    ⟨insertAt st.chips p ⟨beat, 0, (stoi16 tok : ℚ)⟩, p, st.notes⟩
  else if channel = 8 then
    ⟨insertAt st.chips p ⟨beat, 0, env.bpmTable (stoi36 tok)⟩, p, st.notes⟩
  else if channel = 9 then
    ⟨insertAt st.chips p ⟨beat, env.stopTable (stoi36 tok), 0⟩, p, st.notes⟩
  else if (11 ≤ channel ∧ channel ≤ 16) ∨ (18 ≤ channel ∧ channel ≤ 19) then
    if p ≠ 0 ∧ tok = env.lnobj then
      ⟨setBeat2 st.chips (p - 1) beat, p, st.notes⟩
    else
      ⟨insertAt st.chips p ⟨beat, 0, (stoi36 tok : ℚ)⟩, p, st.notes + 1⟩
  else if (51 ≤ channel ∧ channel ≤ 56) ∨ (58 ≤ channel ∧ channel ≤ 59) then
    if p ≠ 0 ∧ openAt st.chips (p - 1) = true then
      ⟨setBeat2 st.chips (p - 1) beat, p, st.notes⟩
    else
      ⟨insertAt st.chips p ⟨beat, -1, (stoi36 tok : ℚ)⟩, p, st.notes + 1⟩
  else
    ⟨st.chips, p, st.notes⟩

/-- The `for (int c = 0; c < length; c++)` loop of `calcChip`; `c` is the
token index, the token at index `c` sits at beat
`init_beat + c * B / len` (`B = bms.beats[measure]`, `len` the token
count of the line). -/
def chipLoop (env : BMSEnv) (channel : ℕ) (init_beat B : ℚ) (len : ℕ) :
    ℕ → List String → ChipState → ChipState
  | _, [], st => st
  | c, tok :: rest, st =>
      chipLoop env channel init_beat B len (c + 1) rest
        (chipStep env channel (init_beat + c * B / len) tok st)

/-- `calcChip(Chips &, int measure, string &&, BMS &, int channel)`:
`length = tokens`, `init_beat = Σ beats[0..measure)`, then the token
loop; returns the edited chip sequence and the updated
`bms.totalNotes`. -/
def calcChip (chips : List Chip) (measure : ℕ) (toks : List String)
    (env : BMSEnv) (totalNotes : ℤ) (channel : ℕ) : List Chip × ℤ :=
  let len := toks.length
  let init_beat := ((List.range measure).map env.beats).sum
  let st := chipLoop env channel init_beat (env.beats measure) len 0 toks
    ⟨chips, 0, totalNotes⟩
  (st.chips, st.notes)

/-- A source line, as the two regex passes of the parser classify it:
a measure beat-length directive `#mmm02:x`, a channel line
`#mmm<ch>:<tokens>` (tokens pre-sliced into 2-character strings), or any
other line (metadata, table assignment, junk — invisible to pass 1). -/
inductive SrcLine where
  | measure (m : ℕ) (x : ℚ)
  | channel (m : ℕ) (ch : ℕ) (toks : List String)
  | other
deriving DecidableEq

/-- `parseBMSMeasure(BMS &, string &)`: on a `#mmm02:x` line set
`bms.beats[m] = x * 4`, ignore every other line. -/
def parseBMSMeasure (beats : ℕ → ℚ) (l : SrcLine) : ℕ → ℚ :=
  match l with
  | .measure m x => fun j => if j = m then x * 4 else beats j
  | _ => beats

/-- Pass 1 of `parseBMS`: fold `parseBMSMeasure` over every line of the
source, starting from `bms.beats.fill(4)`. -/
def pass1 (ls : List SrcLine) : ℕ → ℚ := ls.foldl parseBMSMeasure (fun _ => 4)

/-- The beat-length directive values for measure `m`, in source order. -/
def directives (ls : List SrcLine) (m : ℕ) : List ℚ :=
  ls.filterMap (fun l =>
    match l with
    | .measure m' x => if m' = m then some x else none
    | _ => none)

/-! ## Timeline builder: `calcSegment` -/

/-- The `for (auto &bpm : bpms)` loop of `calcSegment`, carrying the
running `(state_time, state_beat, state_bpm)`. -/
def calcSegmentLoop : List Chip → ℚ → ℚ → ℚ → List Segment
  | [], _, _, _ => []
  | chip :: rest, st, sb, sbpm =>
    let time := st + (chip.beat - sb) * 60 / sbpm
    if chip.value > 0 then
      ⟨time, chip.beat, chip.value / 60, chip.value⟩ ::
        calcSegmentLoop rest time chip.beat chip.value
    else if chip.beat2 > 0 then
      ⟨time, chip.beat, 0, sbpm⟩ ::
      ⟨time + chip.beat2 * 60 / sbpm, chip.beat, sbpm / 60, sbpm⟩ ::
        calcSegmentLoop rest (time + chip.beat2 * 60 / sbpm) chip.beat sbpm
    else calcSegmentLoop rest st sb sbpm

/-- `calcSegment(Chips &bpms, Segments &)`: initial segment at time 0 /
beat 0 with `bpms.front().value`, the event loop, then the infinite
sentinel `{ INT_MAX, INT_MAX, 0, 0 }`.  (`bpms.front()` on an empty
vector is UB in C++; the program always seeds `bpms` with its sentinel
before calling, so `headD` agrees with it on the program's inputs.) -/
def calcSegment (bpms : List Chip) : List Segment :=
  let b0 := (bpms.headD ⟨0, 0, 0⟩).value
  ⟨0, 0, b0 / 60, b0⟩ :: (calcSegmentLoop bpms 0 0 b0 ++ [⟨INT_MAX, INT_MAX, 0, 0⟩])

/-! ## Session lookup: `getSegment` -/

/-- `getSegment(Segments_i &, double time)`:
`while ((segments + 1)->time <= time) segments++; return *segments;`,
with the iterator modelled as an index into the segment list.  (The C++
code never bounds-checks; the `INT_MAX` sentinel stops the scan on the
program's inputs, and the model additionally stops at the end of the
list.) -/
def getSegment (segs : List Segment) (i : ℕ) (time : ℚ) : ℕ :=
  if h : i + 1 < segs.length then
    if (segs.get ⟨i + 1, h⟩).time ≤ time then getSegment segs (i + 1) time
    else i
  else i
termination_by segs.length - i

/-! ## Judgment engine: `judge`, `judgeln`, the driver guard -/

/-- Result of one `judge`/`judgeln` call on one lane: the score, the
pending long-note tier `player.judges[index]`, the input bitfield
`player.inputs[index]`, whether `lane.begin` advanced, and whether the
note's sample was played (`Mix_PlayChannel`). -/
structure JudgeResult where
  score   : Score
  pending : ℤ
  input   : ℕ
  advance : Bool
  played  : Bool

/-- `judgeln(Player &, Option &, Score &, Lane &, int)`: the holding
handler (pending tier set). -/
def judgeln (autoPlay : Bool) (noteBeat2 pBeat bpm : ℚ) (s : Score)
    (pending : ℤ) (input : ℕ) : JudgeResult :=
  if ¬autoPlay ∧ input = 0 then
    ⟨calcReset s, 0, input, true, false⟩
  else
    let time := (noteBeat2 - pBeat) * 60 / bpm
    if time > 0 then ⟨s, pending, input, false, false⟩
    else ⟨calculate s pending, 0, 0, true, false⟩

/-- `judge(Player &, Option &, Score &, Lane &, int)`: delegate to
`judgeln` when a pending tier is set, otherwise classify
`time = (note.beat - player.beat) * 60 / player.bpm` against the three
windows; too-early returns unchanged, too-late takes `calcReset` and
advances, otherwise the sample is played and the tier is either parked
as pending (long note) or recorded via `calculate`. -/
def judge (autoPlay : Bool) (note : Chip) (pBeat bpm : ℚ) (s : Score)
    (pending : ℤ) (input : ℕ) : JudgeResult :=
  if pending ≠ 0 then judgeln autoPlay note.beat2 pBeat bpm s pending input
  else
    let time := (note.beat - pBeat) * 60 / bpm
    if JUDGE_BORDER_GOOD ≤ time then ⟨s, pending, input, false, false⟩
    else if time ≤ -JUDGE_BORDER_GOOD then ⟨calcReset s, pending, input, true, false⟩
    else
      let a := if time < 0 then -time else time
      let j : ℤ :=
        if a < JUDGE_BORDER_COOL then 1
        else if a < JUDGE_BORDER_GREAT then 2
        else if a < JUDGE_BORDER_GOOD then 3
        else 0
      if j = 0 then ⟨s, pending, input, false, true⟩
      else if note.beat2 > 0 then ⟨s, j, input, false, true⟩
      else ⟨calculate s j, pending, input, true, true⟩

/-- The look-ahead padding of the time-driven entry in `update`: 0 in
autoplay, `(JUDGE_BORDER_GOOD + 0.001) * bpm / 60` beats in manual
mode; `update` calls `judge` for a lane once
`player.beat >= lane.begin->beat + padding`. -/
def updatePadding (autoPlay : Bool) (bpm : ℚ) : ℚ :=
  if autoPlay then 0 else (JUDGE_BORDER_GOOD + 1/1000) * bpm / 60

/-- Beat-sortedness of a chip sequence: the beats, in order, are
non-decreasing (ties allowed).  This is the `EventSequence` ordering
invariant of the chart model. -/
def SortedBeat (l : List Chip) : Prop := List.Pairwise (· ≤ ·) (l.map Chip.beat)

/-! ## Helper lemmas -/

/-- The `p = (c - 11 < 0) ? -(c - 11) : (c - 11)` of `comboBonus` is the
absolute value `|c - 11|`. -/
theorem absBranch (c : ℤ) : (if c - 11 < 0 then -(c - 11) else c - 11) = |c - 11| := by
  rcases lt_or_le (c - 11) 0 with h | h
  · simp [h, abs_of_neg h]
  · simp [not_lt.mpr h, abs_of_nonneg h]

/-- C truncating division of nonnegatives is the rational floor. -/
theorem tdiv_floor (a b : ℤ) (h : 0 < b) (ha : 0 ≤ a) :
    Int.tdiv a b = ⌊(a : ℚ) / (b : ℚ)⌋ := by
  rw [Int.tdiv_eq_ediv ha h.le]
  have hb : ((b.toNat : ℕ) : ℚ) = (b : ℚ) := by
    exact_mod_cast Int.toNat_of_nonneg h.le
  rw [← hb, Rat.floor_intCast_div_natCast, Int.toNat_of_nonneg h.le]

/-- The `(time < 0) ? -time : time` of `judge` is the absolute value. -/
theorem absQ (q : ℚ) : (if q < 0 then -q else q) = |q| := by
  rcases lt_or_le q 0 with h | h
  · simp [h, abs_of_neg h]
  · simp [not_lt.mpr h, abs_of_nonneg h]

/-- Field-level description of `comboCount`: `maxCombo` folds in `combo`,
the combo bonus is recomputed from the pre-reset `combo`, `combo` is
zeroed, everything else is untouched. -/
theorem comboCountSpec (s : Score) :
    (comboCount s).maxCombo = max s.maxCombo s.combo ∧
    (comboCount s).comboBonus =
      Int.tdiv (1250 * (s.combo * s.combo - (s.combo - 10) * |s.combo - 11| +
        19 * s.combo - 110)) (2 * s.totalNotes - 11) ∧
    (comboCount s).combo = 0 ∧
    (comboCount s).judges = s.judges ∧
    (comboCount s).totalJudges = s.totalJudges ∧
    (comboCount s).totalNotes = s.totalNotes ∧
    (comboCount s).point = s.point := by
  refine ⟨?_, ?_, ?_, ?_, ?_, ?_, ?_⟩ <;>
    simp only [comboCount, comboBonus, bonusDenom, absBranch] <;>
    split_ifs with h
  · exact (max_eq_right h.le).symm
  · exact (max_eq_left (not_lt.mp h)).symm
  all_goals rfl

/-- Field-level description of `calcReset`: miss counter and total judged
count bump, `comboCount` runs on the bumped score. -/
theorem calcResetSpec (s : Score) :
    (calcReset s).maxCombo = max s.maxCombo s.combo ∧
    (calcReset s).comboBonus =
      Int.tdiv (1250 * (s.combo * s.combo - (s.combo - 10) * |s.combo - 11| +
        19 * s.combo - 110)) (2 * s.totalNotes - 11) ∧
    (calcReset s).combo = 0 ∧
    (calcReset s).judges 3 = s.judges 3 + 1 ∧
    (calcReset s).judges 0 = s.judges 0 ∧
    (calcReset s).totalJudges = s.totalJudges + 1 := by
  have h3 : (((3 : Fin 4) : ℕ) : ℤ) = 3 := by decide
  have h0 : ¬((((0 : Fin 4) : ℕ) : ℤ) = 3) := by decide
  obtain ⟨hmax, hbon, hcmb, hjdg, htj, _, _⟩ :=
    comboCountSpec { s with judges := bumpJudge s.judges 3 }
  have hstep : calcReset s =
      { comboCount { s with judges := bumpJudge s.judges 3 } with
        totalJudges := (comboCount { s with judges := bumpJudge s.judges 3 }).totalJudges + 1 } := rfl
  rw [hstep]
  refine ⟨hmax, hbon, hcmb, ?_, ?_, by rw [htj]⟩
  · show (comboCount { s with judges := bumpJudge s.judges 3 }).judges 3 = s.judges 3 + 1
    rw [hjdg]
    simp [bumpJudge, h3]
  · show (comboCount { s with judges := bumpJudge s.judges 3 }).judges 0 = s.judges 0
    rw [hjdg]
    simp [bumpJudge, h0]

/-! ## Claim theorems -/

/-- C1 (amended): on every combo reset — `calcReset` for a recorded miss,
`comboCount` inside `gameOver` for session end — the engine first updates
`maxCombo` to `max maxCombo combo`, then OVERWRITES the combo-bonus
accumulator with `1250 * (c² - (c-10)*|c-11| + 19c - 110) / (2*totalNotes
- 11)` in integer-truncating arithmetic, `c` being the combo at reset
time (the accumulator's previous value is discarded, not added to), then
zeroes `combo`; the miss path also bumps the miss counter and the total
judged count. -/
theorem C1_comboReset_overwrites_bonus (s : Score) :
    (calcReset s).maxCombo = max s.maxCombo s.combo ∧
    (calcReset s).comboBonus =
      Int.tdiv (1250 * (s.combo * s.combo - (s.combo - 10) * |s.combo - 11| +
        19 * s.combo - 110)) (2 * s.totalNotes - 11) ∧
    (calcReset s).combo = 0 ∧
    (calcReset s).judges 3 = s.judges 3 + 1 ∧
    (calcReset s).totalJudges = s.totalJudges + 1 ∧
    (gameOver s).maxCombo = max s.maxCombo s.combo ∧
    (gameOver s).comboBonus =
      Int.tdiv (1250 * (s.combo * s.combo - (s.combo - 10) * |s.combo - 11| +
        19 * s.combo - 110)) (2 * s.totalNotes - 11) ∧
    (gameOver s).combo = 0 := by
  obtain ⟨rmax, rbon, rcmb, rj3, _, rtj⟩ := calcResetSpec s
  obtain ⟨gmax, gbon, gcmb, _, _, _, _⟩ := comboCountSpec s
  exact ⟨rmax, rbon, rcmb, rj3, rtj, gmax, gbon, gcmb⟩

/-- C1 counterexample: on a score with an existing combo-bonus of 1,
combo 100 and 100 total notes, a combo reset leaves the accumulator at
25000 — the bonus of this reset alone — not at `1 + 25000` as the
claim's "added to (not overwritten over)" requires. -/
theorem C1_counterexample :
    (calcReset (⟨fun _ => 0, 100, 1, 0, 0, 0, 100⟩ : Score)).comboBonus = 25000 ∧
    (⟨fun _ => 0, 100, 1, 0, 0, 0, 100⟩ : Score).comboBonus = 1 ∧
    (calcReset (⟨fun _ => 0, 100, 1, 0, 0, 0, 100⟩ : Score)).comboBonus ≠
      (⟨fun _ => 0, 100, 1, 0, 0, 0, 100⟩ : Score).comboBonus +
        Int.tdiv (1250 * (100 * 100 - (100 - 10) * |(100 : ℤ) - 11| +
          19 * 100 - 110)) (2 * 100 - 11) := by
  refine ⟨by decide, rfl, by decide⟩

/-- C2: the final point total computed at session end (`gameOver` =
`comboCount` then `scoreCount`) equals
`⌊75000·cool/totalNotes⌋ + ⌊(50000·great + 10000·good)/totalNotes⌋ +
comboBonus`, the floors being over the exact rationals and `comboBonus`
the accumulator as left by the session-end combo reset; it is a
deterministic integer function of the judgment counters, the accumulator
and `totalNotes`. -/
theorem C2_point_formula (s : Score) (ht : 1 ≤ s.totalNotes)
    (h0 : 0 ≤ s.judges 0) (h1 : 0 ≤ s.judges 1) (h2 : 0 ≤ s.judges 2) :
    (gameOver s).point =
      ⌊((75000 * s.judges 0 : ℤ) : ℚ) / ((s.totalNotes : ℤ) : ℚ)⌋ +
      ⌊((50000 * s.judges 1 + 10000 * s.judges 2 : ℤ) : ℚ) /
        ((s.totalNotes : ℤ) : ℚ)⌋ +
      (comboCount s).comboBonus := by
  have hden : (0 : ℤ) < s.totalNotes := by omega
  rw [← tdiv_floor _ _ hden (by omega), ← tdiv_floor _ _ hden (by omega)]
  simp only [gameOver, scoreCount, scoreDenom, comboCount, comboBonus, bonusDenom]
  split_ifs <;> rfl

/-- C2 witness: 100 notes all judged cool with a full combo of 100 give
`point = 75000 + 25000 = 100000`. -/
theorem C2_point_formula_witness :
    (1 : ℤ) ≤ (⟨fun i => if i = 0 then 100 else 0, 100, 0, 0, 0, 100, 100⟩ : Score).totalNotes ∧
    (0 : ℤ) ≤ (⟨fun i => if i = 0 then 100 else 0, 100, 0, 0, 0, 100, 100⟩ : Score).judges 0 ∧
    (gameOver (⟨fun i => if i = 0 then 100 else 0, 100, 0, 0, 0, 100, 100⟩ : Score)).point =
      ⌊((75000 * (⟨fun i => if i = 0 then 100 else 0, 100, 0, 0, 0, 100, 100⟩ : Score).judges 0 : ℤ) : ℚ) /
        (((⟨fun i => if i = 0 then 100 else 0, 100, 0, 0, 0, 100, 100⟩ : Score).totalNotes : ℤ) : ℚ)⌋ +
      ⌊((50000 * (⟨fun i => if i = 0 then 100 else 0, 100, 0, 0, 0, 100, 100⟩ : Score).judges 1 +
          10000 * (⟨fun i => if i = 0 then 100 else 0, 100, 0, 0, 0, 100, 100⟩ : Score).judges 2 : ℤ) : ℚ) /
        (((⟨fun i => if i = 0 then 100 else 0, 100, 0, 0, 0, 100, 100⟩ : Score).totalNotes : ℤ) : ℚ)⌋ +
      (comboCount (⟨fun i => if i = 0 then 100 else 0, 100, 0, 0, 0, 100, 100⟩ : Score)).comboBonus :=
  ⟨by decide, by decide,
    C2_point_formula ⟨fun i => if i = 0 then 100 else 0, 100, 0, 0, 0, 100, 100⟩
      (by decide) (by decide) (by decide) (by decide)⟩

/-- C3: whenever `totalNotes ≥ 1` (the precondition every judged session
satisfies — a chart must have a playable note to be judged), the divisor
of the point formula (`scoreCount`) and the divisor of the combo-bonus
formula (`comboBonus`) are both nonzero, so no division by zero occurs
in the scoring computations. -/
theorem C3_divisors_nonzero (s : Score) (ht : 1 ≤ s.totalNotes) :
    scoreDenom s ≠ 0 ∧ bonusDenom s ≠ 0 := by
  unfold scoreDenom bonusDenom
  omega

/-- Invariant of the `getSegment` scan: the cursor never moves backward,
and at the stopping position the next segment (when one exists) lies
strictly beyond the supplied time. -/
theorem getSegment_spec (segs : List Segment) (t : ℚ) (i : ℕ) :
    i ≤ getSegment segs i t ∧
    ∀ sg ∈ segs.get? (getSegment segs i t + 1), t < sg.time := by
  have H : ∀ n i, segs.length - i ≤ n →
      i ≤ getSegment segs i t ∧
      ∀ sg ∈ segs.get? (getSegment segs i t + 1), t < sg.time := by
    intro n
    induction n with
    | zero =>
      intro i h
      rw [getSegment]
      have hlen : ¬(i + 1 < segs.length) := by omega
      simp only [hlen, dite_false]
      refine ⟨le_refl i, ?_⟩
      intro sg hsg
      rw [List.get?_eq_none.mpr (by omega)] at hsg
      exact absurd hsg (by simp)
    | succ n ih =>
      intro i h
      rw [getSegment]
      by_cases hlen : i + 1 < segs.length
      · simp only [hlen, dite_true]
        by_cases htime : (segs.get ⟨i + 1, hlen⟩).time ≤ t
        · simp only [htime, if_true]
          have := ih (i + 1) (by omega)
          exact ⟨le_trans (Nat.le_succ i) this.1, this.2⟩
        · simp only [htime, if_false]
          refine ⟨le_refl i, ?_⟩
          intro sg hsg
          rw [List.get?_eq_get hlen] at hsg
          simp only [Option.mem_def, Option.some_inj] at hsg
          subst hsg
          exact lt_of_not_le htime
      · simp only [hlen, dite_false]
        refine ⟨le_refl i, ?_⟩
        intro sg hsg
        rw [List.get?_eq_none.mpr (by omega)] at hsg
        exact absurd hsg (by simp)
  exact H segs.length i (by omega)

/-- C7: `getSegment` advances its cursor forward only — the result is at
least the starting index, the scan stops exactly when the next segment's
time exceeds the supplied elapsed time, and chaining a second call from
the returned cursor (as the one-cursor driver loop does on every frame)
can only move the cursor further forward, so over any sequence of calls
the returned segment index is non-decreasing. -/
theorem C7_getSegment_forward_only (segs : List Segment) (i : ℕ) (t t₂ : ℚ) :
    i ≤ getSegment segs i t ∧
    (∀ sg ∈ segs.get? (getSegment segs i t + 1), t < sg.time) ∧
    getSegment segs i t ≤ getSegment segs (getSegment segs i t) t₂ :=
  ⟨(getSegment_spec segs t i).1, (getSegment_spec segs t i).2,
    (getSegment_spec segs t₂ (getSegment segs i t)).1⟩

/-- C3 witness at a 7-note chart. -/
theorem C3_divisors_nonzero_witness :
    (1 : ℤ) ≤ (⟨fun _ => 0, 0, 0, 0, 0, 0, 7⟩ : Score).totalNotes ∧
    (scoreDenom (⟨fun _ => 0, 0, 0, 0, 0, 0, 7⟩ : Score) ≠ 0 ∧
      bonusDenom (⟨fun _ => 0, 0, 0, 0, 0, 0, 7⟩ : Score) ≠ 0) :=
  ⟨by decide, C3_divisors_nonzero ⟨fun _ => 0, 0, 0, 0, 0, 0, 7⟩ (by decide)⟩

/-- C8: for an input-driven judgment on a lane with no pending tier
(`player.judges[index] = 0`), with `Δt = (note.beat - currentBeat) * 60 /
bpm`: an input with `Δt ≥ 0.100 s` is ignored with no state change;
otherwise `|Δt| < 0.025` classifies cool (tier 1), `|Δt| < 0.050` great
(tier 2), `|Δt| < 0.100` good (tier 3); a successful classification
plays the note's sample, and a long note (`beat2 > 0`) parks the tier as
pending without advancing `begin` while a short note records it at once
(tier counter, combo and total judged count each increment) and
advances `begin`. -/
theorem C8_input_judgment (autoPlay : Bool) (note : Chip) (pBeat bpm tm : ℚ)
    (s : Score) (input : ℕ)
    (ht : tm = (note.beat - pBeat) * 60 / bpm) :
    (JUDGE_BORDER_GOOD ≤ tm →
      judge autoPlay note pBeat bpm s 0 input = ⟨s, 0, input, false, false⟩) ∧
    (|tm| < JUDGE_BORDER_COOL →
      (note.beat2 > 0 →
        judge autoPlay note pBeat bpm s 0 input = ⟨s, 1, input, false, true⟩) ∧
      (¬note.beat2 > 0 →
        judge autoPlay note pBeat bpm s 0 input = ⟨calculate s 1, 0, input, true, true⟩)) ∧
    (JUDGE_BORDER_COOL ≤ |tm| → |tm| < JUDGE_BORDER_GREAT →
      (note.beat2 > 0 →
        judge autoPlay note pBeat bpm s 0 input = ⟨s, 2, input, false, true⟩) ∧
      (¬note.beat2 > 0 →
        judge autoPlay note pBeat bpm s 0 input = ⟨calculate s 2, 0, input, true, true⟩)) ∧
    (JUDGE_BORDER_GREAT ≤ |tm| → |tm| < JUDGE_BORDER_GOOD →
      (note.beat2 > 0 →
        judge autoPlay note pBeat bpm s 0 input = ⟨s, 3, input, false, true⟩) ∧
      (¬note.beat2 > 0 →
        judge autoPlay note pBeat bpm s 0 input = ⟨calculate s 3, 0, input, true, true⟩)) ∧
    (∀ j : ℤ, (calculate s j).combo = s.combo + 1 ∧
      (calculate s j).totalJudges = s.totalJudges + 1) ∧
    (calculate s 1).judges 0 = s.judges 0 + 1 ∧
    (calculate s 2).judges 1 = s.judges 1 + 1 ∧
    (calculate s 3).judges 2 = s.judges 2 + 1 := by
  have habs : (if (note.beat - pBeat) * 60 / bpm < 0 then -((note.beat - pBeat) * 60 / bpm)
      else (note.beat - pBeat) * 60 / bpm) = |tm| := by rw [ht, absQ]
  have guards : ∀ h : |tm| < JUDGE_BORDER_GOOD,
      (¬ JUDGE_BORDER_GOOD ≤ (note.beat - pBeat) * 60 / bpm) ∧
      (¬ (note.beat - pBeat) * 60 / bpm ≤ -JUDGE_BORDER_GOOD) := by
    intro h
    have hb := abs_lt.mp h
    constructor
    · rw [← ht]; unfold JUDGE_BORDER_GOOD at *; linarith [hb.2]
    · rw [← ht]; unfold JUDGE_BORDER_GOOD at *; linarith [hb.1]
  refine ⟨?_, ?_, ?_, ?_, fun j => ⟨rfl, rfl⟩, ?_, ?_, ?_⟩
  · intro h
    rw [ht] at h
    simp only [judge, ne_eq, not_true_eq_false, if_false]
    rw [if_pos h]
  · intro h
    have hg : |tm| < JUDGE_BORDER_GOOD :=
      lt_of_lt_of_le h (by norm_num [JUDGE_BORDER_COOL, JUDGE_BORDER_GOOD])
    obtain ⟨h1, h2⟩ := guards hg
    have h3 : (if (note.beat - pBeat) * 60 / bpm < 0 then -((note.beat - pBeat) * 60 / bpm)
        else (note.beat - pBeat) * 60 / bpm) < JUDGE_BORDER_COOL := by rw [habs]; exact h
    constructor
    · intro hb2
      simp only [judge, ne_eq, not_true_eq_false, if_false]
      rw [if_neg h1, if_neg h2, if_pos h3]
      rw [if_neg (by norm_num : ¬(1 : ℤ) = 0), if_pos hb2]
    · intro hb2
      simp only [judge, ne_eq, not_true_eq_false, if_false]
      rw [if_neg h1, if_neg h2, if_pos h3]
      rw [if_neg (by norm_num : ¬(1 : ℤ) = 0), if_neg hb2]
  · intro hc h
    have hg : |tm| < JUDGE_BORDER_GOOD :=
      lt_of_lt_of_le h (by norm_num [JUDGE_BORDER_GREAT, JUDGE_BORDER_GOOD])
    obtain ⟨h1, h2⟩ := guards hg
    have h3 : ¬ (if (note.beat - pBeat) * 60 / bpm < 0 then -((note.beat - pBeat) * 60 / bpm)
        else (note.beat - pBeat) * 60 / bpm) < JUDGE_BORDER_COOL := by
      rw [habs]; exact not_lt.mpr hc
    have h4 : (if (note.beat - pBeat) * 60 / bpm < 0 then -((note.beat - pBeat) * 60 / bpm)
        else (note.beat - pBeat) * 60 / bpm) < JUDGE_BORDER_GREAT := by rw [habs]; exact h
    constructor
    · intro hb2
      simp only [judge, ne_eq, not_true_eq_false, if_false]
      rw [if_neg h1, if_neg h2, if_neg h3, if_pos h4]
      rw [if_neg (by norm_num : ¬(2 : ℤ) = 0), if_pos hb2]
    · intro hb2
      simp only [judge, ne_eq, not_true_eq_false, if_false]
      rw [if_neg h1, if_neg h2, if_neg h3, if_pos h4]
      rw [if_neg (by norm_num : ¬(2 : ℤ) = 0), if_neg hb2]
  · intro hc h
    obtain ⟨h1, h2⟩ := guards h
    have h3 : ¬ (if (note.beat - pBeat) * 60 / bpm < 0 then -((note.beat - pBeat) * 60 / bpm)
        else (note.beat - pBeat) * 60 / bpm) < JUDGE_BORDER_COOL := by
      rw [habs]
      exact not_lt.mpr (le_trans (by norm_num [JUDGE_BORDER_COOL, JUDGE_BORDER_GREAT]) hc)
    have h4 : ¬ (if (note.beat - pBeat) * 60 / bpm < 0 then -((note.beat - pBeat) * 60 / bpm)
        else (note.beat - pBeat) * 60 / bpm) < JUDGE_BORDER_GREAT := by
      rw [habs]; exact not_lt.mpr hc
    have h5 : (if (note.beat - pBeat) * 60 / bpm < 0 then -((note.beat - pBeat) * 60 / bpm)
        else (note.beat - pBeat) * 60 / bpm) < JUDGE_BORDER_GOOD := by rw [habs]; exact h
    constructor
    · intro hb2
      simp only [judge, ne_eq, not_true_eq_false, if_false]
      rw [if_neg h1, if_neg h2, if_neg h3, if_neg h4, if_pos h5]
      rw [if_neg (by norm_num : ¬(3 : ℤ) = 0), if_pos hb2]
    · intro hb2
      simp only [judge, ne_eq, not_true_eq_false, if_false]
      rw [if_neg h1, if_neg h2, if_neg h3, if_neg h4, if_pos h5]
      rw [if_neg (by norm_num : ¬(3 : ℤ) = 0), if_neg hb2]
  · simp [calculate, bumpJudge]
  · simp [calculate, bumpJudge]
  · simp [calculate, bumpJudge]

/-- C8 witness: a short note at beat 1 hit exactly on time (`Δt = 0`, 60
BPM) classifies cool and is recorded at once. -/
theorem C8_input_judgment_witness :
    (0 : ℚ) = (((⟨1, 0, 5⟩ : Chip).beat - 1) * 60) / 60 ∧
    judge false ⟨1, 0, 5⟩ 1 60 (⟨fun _ => 0, 0, 0, 0, 0, 0, 10⟩ : Score) 0 0 =
      ⟨calculate (⟨fun _ => 0, 0, 0, 0, 0, 0, 10⟩ : Score) 1, 0, 0, true, true⟩ :=
  ⟨by norm_num,
    ((C8_input_judgment false ⟨1, 0, 5⟩ 1 60 0 ⟨fun _ => 0, 0, 0, 0, 0, 0, 10⟩ 0
        (by norm_num)).2.1
      (by norm_num [JUDGE_BORDER_COOL])).2 (by norm_num)⟩

/-- C10: an input-driven `judge` call on a lane with no pending tier and
`Δt = (note.beat - currentBeat) * 60 / bpm ≤ -0.100 s` (late beyond the
good window) records a miss via `calcReset` — miss counter and total
judged count increment, the combo is folded into `maxCombo`, the
combo-bonus accumulator is recomputed from it, combo resets to zero —
and the begin cursor advances; the manual-mode time-driven entry of
`update` (guard `player.beat ≥ note.beat + padding`,
`padding = (goodWindow + 0.001) * bpm / 60`) lands in this same
too-late branch of the shared `judge` function. -/
theorem C10_late_press_records_miss (autoPlay : Bool) (note : Chip)
    (pBeat bpm tm : ℚ) (s : Score) (input : ℕ)
    (ht : tm = (note.beat - pBeat) * 60 / bpm) :
    (tm ≤ -JUDGE_BORDER_GOOD →
      judge autoPlay note pBeat bpm s 0 input = ⟨calcReset s, 0, input, true, false⟩) ∧
    (calcReset s).judges 3 = s.judges 3 + 1 ∧
    (calcReset s).totalJudges = s.totalJudges + 1 ∧
    (calcReset s).maxCombo = max s.maxCombo s.combo ∧
    (calcReset s).comboBonus =
      Int.tdiv (1250 * (s.combo * s.combo - (s.combo - 10) * |s.combo - 11| +
        19 * s.combo - 110)) (2 * s.totalNotes - 11) ∧
    (calcReset s).combo = 0 ∧
    (0 < bpm → note.beat + updatePadding false bpm ≤ pBeat →
      tm ≤ -JUDGE_BORDER_GOOD) := by
  obtain ⟨rmax, rbon, rcmb, rj3, _, rtj⟩ := calcResetSpec s
  refine ⟨?_, rj3, rtj, rmax, rbon, rcmb, ?_⟩
  · intro hlate
    have h1 : ¬ JUDGE_BORDER_GOOD ≤ (note.beat - pBeat) * 60 / bpm := by
      rw [← ht]; unfold JUDGE_BORDER_GOOD at *; intro hcon; linarith
    have h2 : (note.beat - pBeat) * 60 / bpm ≤ -JUDGE_BORDER_GOOD := by
      rw [← ht]; exact hlate
    simp only [judge, ne_eq, not_true_eq_false, if_false]
    rw [if_neg h1, if_pos h2]
  · intro hbpm hpad
    rw [ht, div_le_iff hbpm]
    simp only [updatePadding, Bool.false_eq_true, if_false] at hpad
    have h1 : note.beat - pBeat ≤ -((JUDGE_BORDER_GOOD + 1/1000) * bpm / 60) := by
      linarith
    have h2 : (note.beat - pBeat) * 60 ≤ -((JUDGE_BORDER_GOOD + 1/1000) * bpm / 60) * 60 :=
      mul_le_mul_of_nonneg_right h1 (by norm_num)
    have h3 : -((JUDGE_BORDER_GOOD + 1/1000) * bpm / 60) * 60 =
        -(JUDGE_BORDER_GOOD + 1/1000) * bpm := by ring
    unfold JUDGE_BORDER_GOOD at *
    have h4 : (0 : ℚ) < 1/1000 * bpm := by positivity
    linarith

/-- C10 witness: a note at beat 0 with the key pressed one full beat late
(`Δt = -1 s` at 60 BPM) records a miss and advances the cursor. -/
theorem C10_late_press_records_miss_witness :
    (-1 : ℚ) = (((⟨0, 0, 5⟩ : Chip).beat - 1) * 60) / 60 ∧
    judge false ⟨0, 0, 5⟩ 1 60 (⟨fun _ => 0, 3, 0, 0, 0, 0, 10⟩ : Score) 0 0 =
      ⟨calcReset (⟨fun _ => 0, 3, 0, 0, 0, 0, 10⟩ : Score), 0, 0, true, false⟩ :=
  ⟨by norm_num,
    (C10_late_press_records_miss false ⟨0, 0, 5⟩ 1 60 (-1)
        ⟨fun _ => 0, 3, 0, 0, 0, 0, 10⟩ 0 (by norm_num)).1
      (by norm_num [JUDGE_BORDER_GOOD])⟩

/-- Running state invariant of the `calcSegment` loop: with a positive
running tempo, beat-sorted input events and nonnegative pause durations,
the produced segment times form a non-decreasing chain starting at or
after the running time. -/
theorem calcSegmentLoop_mono :
    ∀ (chips : List Chip) (st sb bpm : ℚ), 0 < bpm →
      (∀ c ∈ chips, 0 ≤ c.beat2) →
      List.Chain' (fun a b => a.beat ≤ b.beat) chips →
      (∀ c ∈ chips.head?, sb ≤ c.beat) →
      List.Chain' (fun a b : Segment => a.time ≤ b.time) (calcSegmentLoop chips st sb bpm) ∧
      (∀ sg ∈ (calcSegmentLoop chips st sb bpm).head?, st ≤ sg.time) := by
  intro chips
  induction chips with
  | nil => intro st sb bpm _ _ _ _; simp [calcSegmentLoop]
  | cons chip rest ih =>
    intro st sb bpm hbpm hb2 hchain hhead
    have hsb : sb ≤ chip.beat := hhead chip (by simp)
    have hdt : 0 ≤ (chip.beat - sb) * 60 / bpm :=
      div_nonneg (mul_nonneg (by linarith) (by norm_num)) hbpm.le
    have hrestb2 : ∀ c ∈ rest, 0 ≤ c.beat2 := fun c hc => hb2 c (List.mem_cons_of_mem _ hc)
    have hrestchain : List.Chain' (fun a b => a.beat ≤ b.beat) rest := hchain.tail
    have hresthead : ∀ c ∈ rest.head?, chip.beat ≤ c.beat := by
      intro c hc
      exact List.chain'_cons'.mp hchain |>.1 c hc
    simp only [calcSegmentLoop]
    by_cases hv : chip.value > 0
    · simp only [hv, if_true]
      have := ih (st + (chip.beat - sb) * 60 / bpm) chip.beat chip.value hv
        hrestb2 hrestchain hresthead
      constructor
      · exact List.chain'_cons'.mpr ⟨fun y hy => this.2 y hy, this.1⟩
      · intro sg hsg
        simp only [List.head?_cons, Option.mem_def, Option.some_inj] at hsg
        subst hsg
        simp only []
        linarith
    · by_cases hp : chip.beat2 > 0
      · have hpd : 0 ≤ chip.beat2 * 60 / bpm :=
          div_nonneg (mul_nonneg (le_of_lt hp) (by norm_num)) hbpm.le
        have := ih (st + (chip.beat - sb) * 60 / bpm + chip.beat2 * 60 / bpm) chip.beat bpm hbpm
          hrestb2 hrestchain hresthead
        simp only [hv, if_false, hp, if_true]
        constructor
        · refine List.chain'_cons.mpr ⟨by simp only []; linarith, ?_⟩
          exact List.chain'_cons'.mpr ⟨fun y hy => this.2 y hy, this.1⟩
        · intro sg hsg
          simp only [List.head?_cons, Option.mem_def, Option.some_inj] at hsg
          subst hsg
          simp only []
          linarith
      · simp only [hv, if_false, hp, if_false]
        exact ih st sb bpm hbpm hrestb2 hrestchain
          (fun c hc => le_trans hsb (hresthead c hc))

/-- C6: in `calcSegment`, every pause event (`beat2 > 0`, not a tempo
change) produces exactly two segments — a zero-velocity segment at the
pause's time and beat, and a resuming segment at time advanced by
`beat2 * 60 / currentBpm` with the same beat and the unchanged pre-pause
velocity `currentBpm / 60` — and over the whole produced sequence
(initial tempo positive, events beat-sorted with nonnegative beats and
pause durations, loop times within the sentinel bound) segment times are
non-decreasing and the sequence ends with the infinite sentinel. -/
theorem C6_pause_segments (bpms : List Chip)
    (hbpm0 : 0 < (bpms.headD ⟨0, 0, 0⟩).value)
    (hb2 : ∀ c ∈ bpms, 0 ≤ c.beat2)
    (hchain : List.Chain' (fun a b => a.beat ≤ b.beat) bpms)
    (hhead : ∀ c ∈ bpms.head?, 0 ≤ c.beat)
    (hbound : ∀ sg ∈ calcSegmentLoop bpms 0 0 (bpms.headD ⟨0, 0, 0⟩).value,
      sg.time ≤ INT_MAX) :
    (∀ (rest : List Chip) (st sb sbpm : ℚ) (chip : Chip),
      ¬ chip.value > 0 → chip.beat2 > 0 →
      calcSegmentLoop (chip :: rest) st sb sbpm =
        ⟨st + (chip.beat - sb) * 60 / sbpm, chip.beat, 0, sbpm⟩ ::
        ⟨st + (chip.beat - sb) * 60 / sbpm + chip.beat2 * 60 / sbpm, chip.beat,
          sbpm / 60, sbpm⟩ ::
        calcSegmentLoop rest
          (st + (chip.beat - sb) * 60 / sbpm + chip.beat2 * 60 / sbpm) chip.beat sbpm) ∧
    List.Chain' (fun a b : Segment => a.time ≤ b.time) (calcSegment bpms) ∧
    (calcSegment bpms).getLast? = some ⟨INT_MAX, INT_MAX, 0, 0⟩ := by
  obtain ⟨hA, hB⟩ := calcSegmentLoop_mono bpms 0 0 (bpms.headD ⟨0, 0, 0⟩).value
    hbpm0 hb2 hchain hhead
  refine ⟨?_, ?_, ?_⟩
  · intro rest st sb sbpm chip hnv hp
    simp only [calcSegmentLoop]
    rw [if_neg hnv, if_pos hp]
  · show List.Chain' _ (⟨0, 0, _, _⟩ ::
      (calcSegmentLoop bpms 0 0 (bpms.headD ⟨0, 0, 0⟩).value ++ [⟨INT_MAX, INT_MAX, 0, 0⟩]))
    refine List.chain'_cons'.mpr ⟨?_, ?_⟩
    · intro y hy
      cases hLc : calcSegmentLoop bpms 0 0 (bpms.headD ⟨0, 0, 0⟩).value with
      | nil =>
        rw [hLc] at hy
        simp only [List.nil_append, List.head?_cons, Option.mem_def, Option.some_inj] at hy
        subst hy
        show (0 : ℚ) ≤ INT_MAX
        norm_num [INT_MAX]
      | cons a t =>
        rw [hLc] at hy
        simp only [List.cons_append, List.head?_cons, Option.mem_def, Option.some_inj] at hy
        subst hy
        exact hB a (by rw [hLc]; simp)
    · refine List.chain'_append.mpr ⟨hA, List.chain'_singleton _, ?_⟩
      intro x hx y hy
      simp only [List.head?_cons, Option.mem_def, Option.some_inj] at hy
      subst hy
      obtain ⟨hne, hxl⟩ := List.mem_getLast?_eq_getLast hx
      show x.time ≤ INT_MAX
      exact hbound x (hxl ▸ List.getLast_mem hne)
  · show (⟨0, 0, _, _⟩ ::
      (calcSegmentLoop bpms 0 0 (bpms.headD ⟨0, 0, 0⟩).value ++ [⟨INT_MAX, INT_MAX, 0, 0⟩])).getLast? =
      some ⟨INT_MAX, INT_MAX, 0, 0⟩
    rw [← List.cons_append, List.getLast?_concat]

/-- C6 witness: 120 BPM from beat 0 with a 2-beat pause at beat 4; the
pause freezes the mapping for one real second and the whole segment
sequence is time-sorted and sentinel-terminated. -/
theorem C6_pause_segments_witness :
    0 < (([⟨0, 0, 120⟩, ⟨4, 2, 0⟩] : List Chip).headD ⟨0, 0, 0⟩).value ∧
    List.Chain' (fun a b : Segment => a.time ≤ b.time)
      (calcSegment [⟨0, 0, 120⟩, ⟨4, 2, 0⟩]) :=
  ⟨by norm_num, (C6_pause_segments [⟨0, 0, 120⟩, ⟨4, 2, 0⟩]
    (by norm_num)
    (by intro c hc; simp at hc; rcases hc with h | h <;> simp [h])
    (by simp [List.chain'_cons])
    (by intro c hc; simp at hc; subst hc; norm_num)
    (by intro sg hsg; norm_num [calcSegmentLoop, INT_MAX] at hsg ⊢;
        rcases hsg with h | h | h <;> simp [h] <;> norm_num)).2.1⟩

theorem scanPos_le_length (l : List Chip) (b : ℚ) : scanPos l b ≤ l.length := by
  induction l with
  | nil => simp [scanPos]
  | cons c rest ih =>
    simp only [scanPos, List.length_cons]
    split_ifs
    · omega
    · omega

theorem scanPos_take (l : List Chip) (b : ℚ) :
    ∀ q ∈ (l.map Chip.beat).take (scanPos l b), q ≤ b := by
  induction l with
  | nil => simp [scanPos]
  | cons c rest ih =>
    simp only [scanPos, List.map_cons]
    split_ifs with h
    · intro q hq
      rw [List.take_succ_cons] at hq
      rcases List.mem_cons.mp hq with h1 | h1
      · exact h1 ▸ h
      · exact ih q h1
    · simp

theorem scanPos_get? (l : List Chip) (b : ℚ) :
    ∀ q ∈ (l.map Chip.beat).get? (scanPos l b), b < q := by
  induction l with
  | nil => simp [scanPos]
  | cons c rest ih =>
    simp only [scanPos, List.map_cons]
    split_ifs with h
    · intro q hq
      simp only [List.get?_cons_succ] at hq
      exact ih q hq
    · intro q hq
      simp only [List.get?_cons_zero, Option.mem_def, Option.some_inj] at hq
      subst hq
      exact lt_of_not_le h

theorem sorted_drop_le (bs : List ℚ) (p : ℕ) (b : ℚ)
    (hs : List.Pairwise (· ≤ ·) bs) (hp : ∀ q ∈ bs.get? p, b < q) :
    ∀ q ∈ bs.drop p, b ≤ q := by
  cases hg : bs.get? p with
  | none =>
    rw [List.drop_eq_nil_of_le (by simpa using List.get?_eq_none.mp hg)]
    simp
  | some a =>
    have hlt : p < bs.length := by
      by_contra hc
      rw [List.get?_eq_none.mpr (by omega)] at hg
      exact absurd hg (by simp)
    have hdrop : bs.drop p = a :: bs.drop (p + 1) := by
      have := List.drop_eq_get_cons hlt
      rwa [show bs.get ⟨p, hlt⟩ = a from by
        have := List.get?_eq_get hlt
        rw [hg] at this
        exact (Option.some_inj.mp this).symm] at this
    rw [hdrop]
    have hba : b < a := hp a (by rw [hg]; rfl)
    have hpw : List.Pairwise (· ≤ ·) (a :: bs.drop (p + 1)) := by
      rw [← hdrop]
      exact hs.sublist (List.drop_sublist _ _)
    intro q hq
    rcases List.mem_cons.mp hq with h1 | h1
    · exact h1 ▸ hba.le
    · exact le_trans hba.le ((List.pairwise_cons.mp hpw).1 q h1)

theorem pairwise_insert_mid (bs : List ℚ) (p : ℕ) (x : ℚ)
    (hs : List.Pairwise (· ≤ ·) bs)
    (hpre : ∀ q ∈ bs.take p, q ≤ x)
    (hpost : ∀ q ∈ bs.drop p, x ≤ q) :
    List.Pairwise (· ≤ ·) (bs.take p ++ x :: bs.drop p) := by
  have hsplit := List.take_append_drop p bs
  have hsp : List.Pairwise (· ≤ ·) (bs.take p ++ bs.drop p) := by rwa [hsplit]
  obtain ⟨h1, h2, h3⟩ := List.pairwise_append.mp hsp
  refine List.pairwise_append.mpr ⟨h1, ?_, ?_⟩
  · exact List.pairwise_cons.mpr ⟨hpost, h2⟩
  · intro a ha y hy
    rcases List.mem_cons.mp hy with h4 | h4
    · exact h4 ▸ hpre a ha
    · exact h3 a ha y h4

theorem map_beat_insertAt (l : List Chip) (p : ℕ) (x : Chip) :
    (insertAt l p x).map Chip.beat =
      (l.map Chip.beat).take p ++ x.beat :: (l.map Chip.beat).drop p := by
  simp [insertAt, List.map_take, List.map_drop]

theorem map_beat_setBeat2 : ∀ (l : List Chip) (k : ℕ) (b : ℚ),
    (setBeat2 l k b).map Chip.beat = l.map Chip.beat := by
  intro l
  induction l with
  | nil => intro k b; rfl
  | cons c rest ih =>
    intro k b
    cases k with
    | zero => simp [setBeat2]
    | succ k =>
      simp only [setBeat2, List.get?_cons_succ]
      cases hg : rest.get? k with
      | none => rfl
      | some ch =>
        simp only [List.set_cons_succ, List.map_cons, List.cons.injEq, true_and]
        have := ih k b
        simp only [setBeat2, hg] at this
        exact this

theorem chipStep_inv (env : BMSEnv) (channel : ℕ) (beat : ℚ) (tok : String)
    (st : ChipState)
    (hs : SortedBeat st.chips) (hi : st.i ≤ st.chips.length)
    (hpre : ∀ q ∈ (st.chips.map Chip.beat).take st.i, q ≤ beat) :
    SortedBeat (chipStep env channel beat tok st).chips ∧
    (chipStep env channel beat tok st).i ≤ (chipStep env channel beat tok st).chips.length ∧
    (∀ q ∈ ((chipStep env channel beat tok st).chips.map Chip.beat).take
        (chipStep env channel beat tok st).i, q ≤ beat) := by
  by_cases h00 : tok = "00"
  · simp only [chipStep, h00, if_true]
    exact ⟨hs, hi, hpre⟩
  · simp only [chipStep, h00, if_false]
    set p := st.i + scanPos (st.chips.drop st.i) beat with hp
    have hmdrop : (st.chips.map Chip.beat).drop st.i = (st.chips.drop st.i).map Chip.beat :=
      (List.map_drop _ _ _).symm
    have hplen : p ≤ st.chips.length := by
      have h1 := scanPos_le_length (st.chips.drop st.i) beat
      rw [List.length_drop] at h1
      omega
    have hpre' : ∀ q ∈ (st.chips.map Chip.beat).take p, q ≤ beat := by
      intro q hq
      rw [hp, List.take_add] at hq
      rcases List.mem_append.mp hq with h1 | h1
      · exact hpre q h1
      · rw [hmdrop] at h1
        exact scanPos_take _ _ q h1
    have hpost' : ∀ q ∈ (st.chips.map Chip.beat).get? p, beat < q := by
      intro q hq
      rw [hp, ← List.get?_drop, hmdrop] at hq
      exact scanPos_get? _ _ q hq
    have hIns : ∀ v : Chip, v.beat = beat →
        SortedBeat (insertAt st.chips p v) ∧
        p ≤ (insertAt st.chips p v).length ∧
        (∀ q ∈ ((insertAt st.chips p v).map Chip.beat).take p, q ≤ beat) := by
      intro v hv
      have hlen : (insertAt st.chips p v).length = st.chips.length + 1 := by
        simp only [insertAt, List.length_append, List.length_cons, List.length_take,
          List.length_drop]
        omega
      have hmap := map_beat_insertAt st.chips p v
      have htkl : ((st.chips.map Chip.beat).take p).length = p := by
        rw [List.length_take, List.length_map]
        omega
      refine ⟨?_, by omega, ?_⟩
      · unfold SortedBeat
        rw [hmap, hv]
        exact pairwise_insert_mid _ p beat hs hpre'
          (sorted_drop_le _ p beat hs hpost')
      · intro q hq
        rw [hmap, hv, List.take_left' htkl] at hq
        exact hpre' q hq
    have hMut : SortedBeat (setBeat2 st.chips (p - 1) beat) ∧
        p ≤ (setBeat2 st.chips (p - 1) beat).length ∧
        (∀ q ∈ ((setBeat2 st.chips (p - 1) beat).map Chip.beat).take p, q ≤ beat) := by
      have hmap := map_beat_setBeat2 st.chips (p - 1) beat
      have hlen : (setBeat2 st.chips (p - 1) beat).length = st.chips.length := by
        have h1 := congrArg List.length hmap
        rwa [List.length_map, List.length_map] at h1
      refine ⟨?_, by omega, ?_⟩
      · unfold SortedBeat
        rw [hmap]
        exact hs
      · intro q hq
        rw [hmap] at hq
        exact hpre' q hq
    split_ifs with h1 h2 h3 h4 h5 h6 h7 h8
    · exact hIns _ rfl
    · exact hIns _ rfl
    · exact hIns _ rfl
    · exact hIns _ rfl
    · exact hMut
    · exact hIns _ rfl
    · exact hMut
    · exact hIns _ rfl
    · exact ⟨hs, hplen, hpre'⟩

theorem chipLoop_sorted (env : BMSEnv) (channel : ℕ) (init B : ℚ) (len : ℕ)
    (hB : 0 ≤ B) :
    ∀ (toks : List String) (c : ℕ) (st : ChipState),
      SortedBeat st.chips → st.i ≤ st.chips.length →
      (∀ q ∈ (st.chips.map Chip.beat).take st.i, q ≤ init + c * B / len) →
      SortedBeat (chipLoop env channel init B len c toks st).chips := by
  intro toks
  induction toks with
  | nil => intro c st hs _ _; exact hs
  | cons tok rest ih =>
    intro c st hs hi hpre
    simp only [chipLoop]
    have hstep := chipStep_inv env channel (init + c * B / len) tok st hs hi hpre
    have hmono : init + (c : ℚ) * B / len ≤ init + ((c + 1 : ℕ) : ℚ) * B / len := by
      rcases Nat.eq_zero_or_pos len with hl | hl
      · subst hl
        norm_num
      · have hlen0 : (0 : ℚ) < (len : ℚ) := by exact_mod_cast hl
        have hc : (c : ℚ) * B ≤ (((c + 1 : ℕ)) : ℚ) * B := by
          apply mul_le_mul_of_nonneg_right _ hB
          push_cast
          linarith
        have hd := (div_le_div_iff_of_pos_right hlen0).mpr hc
        linarith
    exact ih (c + 1) _ hstep.1 hstep.2.1
      (fun q hq => le_trans (hstep.2.2 q hq) hmono)

/-- C9: for every lane and cue sequence, `calcChip` preserves
beat-sortedness of the chip sequence for every channel, measure, token
list and starting counter (given a nonnegative measure beat-length);
the insertion scan places new events after every event with beat `≤` the
new beat and before the first strictly larger one, scanning forward from
the last known position; and the long-note `beat2` mutation never
disturbs the beat order. -/
theorem C9_insertions_preserve_order :
    (∀ (env : BMSEnv) (channel m : ℕ) (toks : List String) (chips : List Chip) (tot : ℤ),
      0 ≤ env.beats m → SortedBeat chips →
      SortedBeat (calcChip chips m toks env tot channel).1) ∧
    (∀ (l : List Chip) (b : ℚ),
      scanPos l b ≤ l.length ∧
      (∀ q ∈ (l.map Chip.beat).take (scanPos l b), q ≤ b) ∧
      (∀ q ∈ (l.map Chip.beat).get? (scanPos l b), b < q)) ∧
    (∀ (l : List Chip) (k : ℕ) (b : ℚ), SortedBeat l → SortedBeat (setBeat2 l k b)) := by
  refine ⟨?_, ?_, ?_⟩
  · intro env channel m toks chips tot hB hs
    exact chipLoop_sorted env channel _ _ _ hB toks 0 ⟨chips, 0, tot⟩ hs
      (Nat.zero_le _) (by simp)
  · intro l b
    exact ⟨scanPos_le_length l b, scanPos_take l b, scanPos_get? l b⟩
  · intro l k b hs
    unfold SortedBeat
    rw [map_beat_setBeat2]
    exact hs

/-- C4 (amended): for every non-`"00"` token on a standard note channel
(11–16, 18–19): if the token equals the configured LNOBJ marker and the
insertion scan finds at least one event at or before the current beat in
the lane (scan position `p ≠ 0`), the event sets the immediately
preceding event's `beat2` to the current beat — whether or not that
event was still open — inserting nothing and leaving the note counter
unchanged; otherwise (including an LNOBJ token with no preceding event,
which the claim wrongly calls a no-op) a new short event is inserted and
the counter increments. -/
theorem C4_lnobj_close_or_insert (env : BMSEnv) (channel : ℕ) (beat : ℚ) (tok : String)
    (st : ChipState)
    (hch : (11 ≤ channel ∧ channel ≤ 16) ∨ (18 ≤ channel ∧ channel ≤ 19))
    (htok : tok ≠ "00") :
    (st.i + scanPos (st.chips.drop st.i) beat ≠ 0 → tok = env.lnobj →
      chipStep env channel beat tok st =
        ⟨setBeat2 st.chips (st.i + scanPos (st.chips.drop st.i) beat - 1) beat,
          st.i + scanPos (st.chips.drop st.i) beat, st.notes⟩ ∧
      (setBeat2 st.chips (st.i + scanPos (st.chips.drop st.i) beat - 1) beat).length =
        st.chips.length) ∧
    ((st.i + scanPos (st.chips.drop st.i) beat = 0 ∨ tok ≠ env.lnobj) →
      chipStep env channel beat tok st =
        ⟨insertAt st.chips (st.i + scanPos (st.chips.drop st.i) beat)
          ⟨beat, 0, (stoi36 tok : ℚ)⟩,
          st.i + scanPos (st.chips.drop st.i) beat, st.notes + 1⟩ ∧
      (insertAt st.chips (st.i + scanPos (st.chips.drop st.i) beat)
        ⟨beat, 0, (stoi36 tok : ℚ)⟩).length = st.chips.length + 1) := by
  have hc1 : ¬(channel = 1) := by omega
  have hc3 : ¬(channel = 3) := by omega
  have hc8 : ¬(channel = 8) := by omega
  have hc9 : ¬(channel = 9) := by omega
  have hsetlen : ∀ (k : ℕ) (b : ℚ), (setBeat2 st.chips k b).length = st.chips.length := by
    intro k b
    have h1 := congrArg List.length (map_beat_setBeat2 st.chips k b)
    rwa [List.length_map, List.length_map] at h1
  have hinslen : ∀ (p : ℕ) (x : Chip), (insertAt st.chips p x).length = st.chips.length + 1 := by
    intro p x
    simp only [insertAt, List.length_append, List.length_cons, List.length_take,
      List.length_drop]
    omega
  constructor
  · intro hp hln
    refine ⟨?_, hsetlen _ _⟩
    simp only [chipStep, htok, if_false]
    rw [if_neg hc1, if_neg hc3, if_neg hc8, if_neg hc9, if_pos hch, if_pos ⟨hp, hln⟩]
  · intro hd
    have hnd : ¬(st.i + scanPos (st.chips.drop st.i) beat ≠ 0 ∧ tok = env.lnobj) := by
      rcases hd with h | h
      · intro hcon; exact hcon.1 h
      · intro hcon; exact h hcon.2
    refine ⟨?_, hinslen _ _⟩
    simp only [chipStep, htok, if_false]
    rw [if_neg hc1, if_neg hc3, if_neg hc8, if_neg hc9, if_pos hch, if_neg hnd]


/-- C4 counterexample: an LNOBJ token (`"ZZ"`) with no preceding open
note is not a no-op — on an empty lane it inserts a fresh note and bumps
the total-note counter, and on a lane whose previous note is already
closed (`beat2 = 1`) it overwrites that close beat with the current
beat. -/
theorem C4_counterexample :
    (calcChip [⟨INT_MAX, 0, 0⟩] 0 ["ZZ"] ⟨fun _ => 4, fun _ => 0, fun _ => 0, "ZZ"⟩ 0 11).2 = 1 ∧
    (calcChip [⟨INT_MAX, 0, 0⟩] 0 ["ZZ"] ⟨fun _ => 4, fun _ => 0, fun _ => 0, "ZZ"⟩ 0 11).1 =
      [⟨0, 0, 1295⟩, ⟨INT_MAX, 0, 0⟩] ∧
    (calcChip [⟨0, 1, 5⟩, ⟨INT_MAX, 0, 0⟩] 1 ["ZZ"]
        ⟨fun _ => 4, fun _ => 0, fun _ => 0, "ZZ"⟩ 7 11).1 =
      [⟨0, 4, 5⟩, ⟨INT_MAX, 0, 0⟩] ∧
    (calcChip [⟨0, 1, 5⟩, ⟨INT_MAX, 0, 0⟩] 1 ["ZZ"]
        ⟨fun _ => 4, fun _ => 0, fun _ => 0, "ZZ"⟩ 7 11).2 = 7 := by
  have hzz : ¬(("ZZ" : String) = "00") := by decide
  have hstoi : stoi36 "ZZ" = 1295 := by decide
  refine ⟨?_, ?_, ?_, ?_⟩ <;>
    norm_num [calcChip, chipLoop, chipStep, scanPos, insertAt, setBeat2,
      hzz, hstoi, INT_MAX]

theorem elim_getLast?_cons (x : ℚ) (rest : List ℚ) (d : ℚ) (f : ℚ → ℚ) :
    ((x :: rest).getLast?).elim d f = (rest.getLast?).elim (f x) f := by
  cases rest with
  | nil => rfl
  | cons y ys =>
    rw [List.getLast?_cons_cons]
    cases h : (y :: ys).getLast? with
    | none => exact absurd h (by simp)
    | some a => rfl

theorem pass1_foldl : ∀ (ls : List SrcLine) (beats : ℕ → ℚ) (m : ℕ),
    (ls.foldl parseBMSMeasure beats) m =
      ((directives ls m).getLast?).elim (beats m) (fun v => v * 4) := by
  intro ls
  induction ls with
  | nil => intro beats m; rfl
  | cons l rest ih =>
    intro beats m
    cases l with
    | measure m' x =>
      by_cases hm : m' = m
      · subst hm
        have hb : (parseBMSMeasure beats (SrcLine.measure m' x)) m' = x * 4 := by
          simp [parseBMSMeasure]
        have hdir : directives (SrcLine.measure m' x :: rest) m' = x :: directives rest m' := by
          simp [directives, List.filterMap_cons]
        rw [List.foldl_cons, ih, hb, hdir, elim_getLast?_cons]
      · have hb : (parseBMSMeasure beats (SrcLine.measure m' x)) m = beats m := by
          simp only [parseBMSMeasure]
          rw [if_neg (fun h => hm h.symm)]
        have hdir : directives (SrcLine.measure m' x :: rest) m = directives rest m := by
          simp [directives, List.filterMap_cons, hm]
        rw [List.foldl_cons, ih, hb, hdir]
    | channel mc ch toks =>
      have hdir : directives (SrcLine.channel mc ch toks :: rest) m = directives rest m := by
        simp [directives, List.filterMap_cons]
      rw [List.foldl_cons, ih, hdir]
      rfl
    | other =>
      have hdir : directives (SrcLine.other :: rest) m = directives rest m := by
        simp [directives, List.filterMap_cons]
      rw [List.foldl_cons, ih, hdir]
      rfl

theorem chipLoop_append_replicate00 (env : BMSEnv) (channel : ℕ) (init B : ℚ) (len : ℕ) :
    ∀ (k c : ℕ) (st : ChipState) (rest : List String),
      chipLoop env channel init B len c (List.replicate k "00" ++ rest) st =
        chipLoop env channel init B len (c + k) rest st := by
  intro k
  induction k with
  | zero => intro c st rest; rfl
  | succ k ih =>
    intro c st rest
    rw [List.replicate_succ, List.cons_append]
    show chipLoop env channel init B len (c + 1)
      (List.replicate k "00" ++ rest) (chipStep env channel _ "00" st) =
      chipLoop env channel init B len (c + (k + 1)) rest st
    rw [show chipStep env channel (init + c * B / len) "00" st = st from rfl]
    rw [ih (c + 1) st rest]
    congr 1
    omega

theorem chipLoop_replicate00 (env : BMSEnv) (channel : ℕ) (init B : ℚ) (len : ℕ)
    (k c : ℕ) (st : ChipState) :
    chipLoop env channel init B len c (List.replicate k "00") st = st := by
  have := chipLoop_append_replicate00 env channel init B len k c st []
  rwa [List.append_nil] at this

/-- C5: measure beat-lengths default to 4 when no `#mmm02:` directive for
the measure exists and equal `x * 4` for the last directive value `x`
otherwise; pass 1 is blind to channel lines, so the resolved lengths —
and hence every channel event's beat — are the same wherever the
directive sits relative to the channel line (two-pass property);
`"00"` tokens leave the parser state untouched, and a lone non-`"00"`
token at index `c` of `len` tokens of measure `m` produces exactly one
event at beat `Σ beats[0..m) + c * beats[m] / len`. -/
theorem C5_two_pass_measure_lengths :
    (∀ (ls : List SrcLine) (m : ℕ), directives ls m = [] → pass1 ls m = 4) ∧
    (∀ (ls : List SrcLine) (m : ℕ) (x : ℚ), (directives ls m).getLast? = some x →
      pass1 ls m = x * 4) ∧
    (∀ (l1 l2 : List SrcLine) (mc ch : ℕ) (toks : List String),
      pass1 (l1 ++ SrcLine.channel mc ch toks :: l2) = pass1 (l1 ++ l2)) ∧
    (∀ (env : BMSEnv) (channel : ℕ) (beat : ℚ) (st : ChipState),
      chipStep env channel beat "00" st = st) ∧
    (∀ (env : BMSEnv) (m c len : ℕ) (tot : ℤ) (tok : String), ¬(tok = "00") → c < len →
      ((List.range m).map env.beats).sum + c * env.beats m / len < INT_MAX →
      (calcChip [⟨INT_MAX, 0, 0⟩] m
          (List.replicate c "00" ++ tok :: List.replicate (len - c - 1) "00") env tot 1).1 =
        [⟨((List.range m).map env.beats).sum + c * env.beats m / len, 0, (stoi36 tok : ℚ)⟩,
         ⟨INT_MAX, 0, 0⟩]) := by
  refine ⟨?_, ?_, ?_, ?_, ?_⟩
  · intro ls m h
    unfold pass1
    rw [pass1_foldl, h]
    rfl
  · intro ls m x h
    unfold pass1
    rw [pass1_foldl, h]
    rfl
  · intro l1 l2 mc ch toks
    unfold pass1
    rw [List.foldl_append, List.foldl_append, List.foldl_cons]
    rfl
  · intro env channel beat st
    rfl
  · intro env m c len tot tok htok hc hlt
    have hlen : (List.replicate c "00" ++ tok :: List.replicate (len - c - 1) "00").length
        = len := by
      simp only [List.length_append, List.length_cons, List.length_replicate]
      omega
    have hscan : scanPos [(⟨INT_MAX, 0, 0⟩ : Chip)]
        (((List.range m).map env.beats).sum + c * env.beats m / len) = 0 := by
      simp only [scanPos]
      rw [if_neg (not_le.mpr hlt)]
    simp only [calcChip, hlen]
    rw [chipLoop_append_replicate00]
    simp only [chipLoop, Nat.zero_add]
    simp only [chipStep, htok, if_false, if_pos rfl]
    simp only [List.drop_zero, hscan]
    rw [chipLoop_replicate00]
    rfl

/-- C4 witness: lane channel 11, LNOBJ `"ZZ"` at beat 4 closing the open
long note at beat 0. -/
theorem C4_lnobj_close_or_insert_witness :
    (((11 ≤ 11 ∧ 11 ≤ 16) ∨ (18 ≤ 11 ∧ 11 ≤ 19)) ∧ ¬(("ZZ" : String) = "00")) ∧
    chipStep ⟨fun _ => 4, fun _ => 0, fun _ => 0, "ZZ"⟩ 11 4 "ZZ"
        ⟨[⟨0, -1, 5⟩, ⟨INT_MAX, 0, 0⟩], 0, 1⟩ =
      ⟨[⟨0, 4, 5⟩, ⟨INT_MAX, 0, 0⟩], 1, 1⟩ :=
  ⟨⟨Or.inl (by norm_num), by decide⟩, by
    have h := (C4_lnobj_close_or_insert ⟨fun _ => 4, fun _ => 0, fun _ => 0, "ZZ"⟩ 11 4 "ZZ"
      ⟨[⟨0, -1, 5⟩, ⟨INT_MAX, 0, 0⟩], 0, 1⟩ (Or.inl (by norm_num)) (by decide)).1
      (by norm_num [scanPos, INT_MAX]) rfl
    rw [h.1]
    norm_num [scanPos, setBeat2, INT_MAX]⟩
